import Mathlib

/-!
Shallow embedding of the clinical-note review analysis engine
(`analyze_reviews.py`): version-key discovery over wide-table column names,
reshaping of per-encounter rows into per-(encounter, version) validation
records, ternary normalization of heterogeneous boolean encodings, and the
aggregate statistics (validity counts, invalid-reason cross-tabulation,
ground-truth agreement).

Tables are modelled as a list of column names plus rows mapping column names
to optional string cells (`none` stands for a missing cell: an absent column
or a missing-value marker such as pandas NaN).  String trimming and
lowercasing are modelled on the character list so that all definitions are
kernel-executable.  Python numerics reaching `normalize_boolean_str` are
modelled as integers.
-/

namespace ClinicalReview

/-- Lexicographic order on character lists by code point, modelling Python's
string ordering used by `sorted`. -/
def charListLe : List Char → List Char → Bool
  | [], _ => true
  | _ :: _, [] => false
  | a :: as, b :: bs =>
    if a.toNat < b.toNat then true
    else if b.toNat < a.toNat then false
    else charListLe as bs

/-- Lexicographic order on strings by code point. -/
def strLe (a b : String) : Bool := charListLe a.toList b.toList

/-- Inserts an element into a list ordered by `le`. -/
def insertLe {α : Type} (le : α → α → Bool) (x : α) : List α → List α
  | [] => [x]
  | y :: ys => if le x y then x :: y :: ys else y :: insertLe le x ys

/-- Insertion sort by `le`, modelling Python's `sorted`. -/
def sortLe {α : Type} (le : α → α → Bool) : List α → List α
  | [] => []
  | x :: xs => insertLe le x (sortLe le xs)

/-- Lowercases every character, modelling Python `str.lower` (ASCII range). -/
def lowerStr (s : String) : String := (s.toList.map Char.toLower).asString

/-- Drops leading and trailing whitespace, modelling Python `str.strip`. -/
def stripStr (s : String) : String :=
  ((s.toList.dropWhile Char.isWhitespace).reverse.dropWhile Char.isWhitespace).reverse.asString

/-- Python values that can reach `normalize_boolean_str`: `None`, a bool, a
numeric (modelled as an integer) or a string. -/
inductive PyVal where
  | vNone : PyVal
  | vBool : Bool → PyVal
  | vInt : Int → PyVal
  | vStr : String → PyVal
deriving DecidableEq

/-- String forms mapped to `True` by `normalize_boolean_str`. -/
def trueStrings : List String := ["true", "1", "yes", "valid"]

/-- String forms mapped to `False` by `normalize_boolean_str`. -/
def falseStrings : List String := ["false", "0", "no", "invalid"]

/-- Embedding of `normalize_boolean_str` (analyze_reviews.py lines 17-29):
bools map to themselves, numerics through truthiness, strings through the
trimmed lowercase form against the two marker lists, anything else to
`none` ("cannot determine"). -/
def normalize_boolean_str : PyVal → Option Bool
  | .vBool b => some b
  | .vInt n => some (decide (n ≠ 0))
  | .vStr s =>
    let valLower := lowerStr (stripStr s)
    if valLower ∈ trueStrings then some true
    else if valLower ∈ falseStrings then some false
    else none
  | .vNone => none

/-- One wide-table row: column name to optional cell value.  `row.get(col)`
yields `none` both for an absent column and for a missing cell. -/
abbrev Row := List (String × Option String)

/-- Embedding of `row.get(col)`: `none` when the column is absent from the
row or the cell holds a missing-value marker. -/
def getCell (r : Row) (c : String) : Option String := (r.lookup c).join

/-- One raw wide table: its column names and its rows. -/
structure Table where
  cols : List String
  rows : List Row

/-- The eight recognized column suffixes of the version pattern
(analyze_reviews.py lines 71-80). -/
def versionSuffixes : List String :=
  ["Validation_Result", "Invalid_Reason", "Comments", "Final_Prediction",
   "Raw_Prediction", "Final_Confidence", "Raw_Confidence", "Attribution"]

/-- Embedding of matching one column name against the version pattern
`^(.*?)_(suffix alternation)$`: the shortest leading text (possibly empty)
such that the remainder is an underscore followed by one of the eight
suffixes; `none` when the column does not match. -/
def matchVersionColumn (col : String) : Option String :=
  (List.range (col.length + 1)).findSome? fun i =>
    let key := (col.toList.take i).asString
    let rest := (col.toList.drop i).asString
    if versionSuffixes.any fun sfx => rest = "_" ++ sfx then some key else none

/-- Version-key discovery (analyze_reviews.py lines 69-90): match every
column, collect the distinct keys, sort them lexicographically. -/
def discoverVersionKeys (cols : List String) : List String :=
  sortLe strLe (cols.filterMap matchVersionColumn).dedup

/-- The long-format record produced for one (encounter row, version key)
pair (analyze_reviews.py lines 96-126). -/
structure ValidationRecord where
  encounterId : Option String
  noteDate : Option String
  groundTruth : Option String
  sourceFile : String
  versionKey : String
  validationResultRaw : String
  validationResult : Option Bool
  invalidReason : Option String
  comments : Option String
  predictedClass : Option String
deriving DecidableEq

/-- Builds the record for a row and version key once the raw validation
result is known to be present (analyze_reviews.py lines 119-126). -/
def mkRecord (sourceFile : String) (gtExists : Bool) (r : Row) (vk : String)
    (raw : String) : ValidationRecord :=
  { encounterId := getCell r "Encounter ID"
    noteDate := getCell r "Note Date"
    groundTruth := if gtExists then getCell r "Ground Truth" else none
    sourceFile := sourceFile
    versionKey := vk
    validationResultRaw := raw
    validationResult := normalize_boolean_str (.vStr raw)
    invalidReason := getCell r (vk ++ "_Invalid_Reason")
    comments := getCell r (vk ++ "_Comments")
    predictedClass := getCell r (vk ++ "_Final_Prediction") }

/-- Records produced from one row: one per discovered version key whose
`<key>_Validation_Result` cell is present (analyze_reviews.py lines
103-126). -/
def recordsForRow (sourceFile : String) (gtExists : Bool) (keys : List String)
    (r : Row) : List ValidationRecord :=
  keys.filterMap fun vk =>
    (getCell r (vk ++ "_Validation_Result")).map (mkRecord sourceFile gtExists r vk)

/-- Outcome of the per-file precondition checks (analyze_reviews.py lines
57-88): the warn-and-skip branches for missing base columns and for a file
with no version-suffixed columns. -/
inductive ExtractStatus where
  | ok
  | missingBaseColumns
  | noVersionKeys
deriving DecidableEq

/-- Which warn-and-skip branch a table takes; base columns are checked
before version-key discovery, as in the source. -/
def extractStatus (t : Table) : ExtractStatus :=
  if "Encounter ID" ∈ t.cols ∧ "Note Date" ∈ t.cols then
    if discoverVersionKeys t.cols = [] then .noVersionKeys else .ok
  else .missingBaseColumns

/-- Extraction of one table (analyze_reviews.py lines 57-129): empty on a
skipped file, otherwise the per-row records over all discovered keys. -/
def extract (t : Table) (sourceFile : String) : List ValidationRecord :=
  match extractStatus t with
  | .ok =>
    t.rows.flatMap
      (recordsForRow sourceFile (decide ("Ground Truth" ∈ t.cols)) (discoverVersionKeys t.cols))
  | _ => []

/-- Embedding of the per-file loop of `process_csv_exports`: each table is
extracted independently and the records are concatenated. -/
def process_csv_exports (files : List (Table × String)) : List ValidationRecord :=
  files.flatMap fun ts => extract ts.1 ts.2

/-- Aggregation-time re-normalization of a record from its raw value
(analyze_reviews.py line 147). -/
def renorm (r : ValidationRecord) : Option Bool :=
  normalize_boolean_str (.vStr r.validationResultRaw)

/-- Records whose re-normalized validation result is a clear true/false
(analyze_reviews.py line 150). -/
def resolvedRecords (rs : List ValidationRecord) : List ValidationRecord :=
  rs.filter fun r => (renorm r).isSome

/-- The surfaced count of records excluded as ambiguous (analyze_reviews.py
line 153). -/
def ambiguousCount (rs : List ValidationRecord) : Nat :=
  rs.length - (resolvedRecords rs).length

/-- Total resolved reviews of the overall summary (analyze_reviews.py line
161). -/
def totalReviews (rs : List ValidationRecord) : Nat := (resolvedRecords rs).length

/-- Count of resolved records normalized to true (analyze_reviews.py line
162). -/
def totalValid (rs : List ValidationRecord) : Nat :=
  ((resolvedRecords rs).filter fun r => decide (renorm r = some true)).length

/-- Invalid count of the overall summary, computed by subtraction
(analyze_reviews.py line 163). -/
def totalInvalid (rs : List ValidationRecord) : Nat := totalReviews rs - totalValid rs

/-- Resolved records normalized to false (analyze_reviews.py line 183). -/
def invalidRecords (rs : List ValidationRecord) : List ValidationRecord :=
  (resolvedRecords rs).filter fun r => decide (renorm r = some false)

/-- Invalid records that also carry a non-null reason: the rows pandas
pandas groupby over version key and reason keeps, since its default
`dropna=True` drops every row whose reason is missing (analyze_reviews.py
line 185). -/
def reasonedInvalidRecords (rs : List ValidationRecord) : List ValidationRecord :=
  (invalidRecords rs).filter fun r => r.invalidReason.isSome

/-- Row index of the invalid-reason cross-tabulation: the distinct version
keys among the kept rows, in sorted order. -/
def crossTabRowKeys (rs : List ValidationRecord) : List String :=
  sortLe strLe ((reasonedInvalidRecords rs).map (·.versionKey)).dedup

/-- Column index of the invalid-reason cross-tabulation: the distinct
non-null reasons among the kept rows, in sorted order. -/
def crossTabReasonCols (rs : List ValidationRecord) : List String :=
  sortLe strLe ((reasonedInvalidRecords rs).filterMap (·.invalidReason)).dedup

/-- One cell of the cross-tabulation: how many kept invalid records have the
given version key and reason (zero where `unstack(fill_value=0)` fills). -/
def crossTabCell (rs : List ValidationRecord) (vk reason : String) : Nat :=
  ((reasonedInvalidRecords rs).filter fun r =>
    decide (r.versionKey = vk) && decide (r.invalidReason = some reason)).length

/-- The appended row-wise total-invalid column (analyze_reviews.py line
187). -/
def crossTabRowTotal (rs : List ValidationRecord) (vk : String) : Nat :=
  ((crossTabReasonCols rs).map (crossTabCell rs vk)).sum

/-- The grand total in the corner of the cross-tabulation: the column-wise
sum of the total-invalid column (analyze_reviews.py line 189). -/
def crossTabGrandTotal (rs : List ValidationRecord) : Nat :=
  ((crossTabRowKeys rs).map (crossTabRowTotal rs)).sum

/-- The comparison form used by the agreement analysis: strip then lower
(analyze_reviews.py lines 207-208). -/
def compStr (s : String) : String := lowerStr (stripStr s)

/-- Resolved records kept for the agreement analysis: ground truth and
predicted class both present and both non-empty after strip/lower
(analyze_reviews.py lines 201-214). -/
def gtRecords (rs : List ValidationRecord) : List ValidationRecord :=
  (resolvedRecords rs).filter fun r =>
    match r.groundTruth, r.predictedClass with
    | some g, some p => !(decide (compStr g = "")) && !(decide (compStr p = ""))
    | _, _ => false

/-- One version key's group of the agreement analysis (analyze_reviews.py
line 220). -/
def gtGroup (rs : List ValidationRecord) (vk : String) : List ValidationRecord :=
  (gtRecords rs).filter fun r => decide (r.versionKey = vk)

/-- Embedding of the per-group total of the agreement table (analyze_reviews.py line 222). -/
def gtTotal (rs : List ValidationRecord) (vk : String) : Nat := (gtGroup rs vk).length

/-- The match predicate of the agreement analysis: comparison forms of
predicted class and ground truth coincide (analyze_reviews.py line 223). -/
def gtMatchB (r : ValidationRecord) : Bool :=
  decide (r.predictedClass.map compStr = r.groundTruth.map compStr)

/-- Embedding of the per-group match count of the agreement table (analyze_reviews.py line 223). -/
def gtMatches (rs : List ValidationRecord) (vk : String) : Nat :=
  ((gtGroup rs vk).filter gtMatchB).length

/-- Embedding of the per-group mismatch count, counted separately with the
negated comparison (analyze_reviews.py line 224). -/
def gtMismatches (rs : List ValidationRecord) (vk : String) : Nat :=
  ((gtGroup rs vk).filter fun r => !(gtMatchB r)).length

/-- Embedding of the agreement rate with its division-by-zero guard
(analyze_reviews.py line 228). -/
def agreementRate (rs : List ValidationRecord) (vk : String) : ℚ :=
  if 0 < gtTotal rs vk then (gtMatches rs vk : ℚ) / (gtTotal rs vk : ℚ) else 0

/-- Embedding of the disagreement rate with its division-by-zero guard
(analyze_reviews.py line 229). -/
def disagreementRate (rs : List ValidationRecord) (vk : String) : ℚ :=
  if 0 < gtTotal rs vk then (gtMismatches rs vk : ℚ) / (gtTotal rs vk : ℚ) else 0

/-- First row of the worked example table: version `m1` holds a present
validation result, version `m2` a missing cell. -/
def wRow1 : Row :=
  [("Encounter ID", some "E1"), ("Note Date", some "2024-01-01"),
   ("Ground Truth", some "Longer"), ("m1_Validation_Result", some "true"),
   ("m1_Invalid_Reason", none), ("m1_Final_Prediction", some " longer "),
   ("m2_Validation_Result", none)]

/-- Second row of the worked example table: version `m1` missing, `m2`
present; the `Ground Truth` cell is a missing-value marker. -/
def wRow2 : Row :=
  [("Encounter ID", some "E2"), ("Note Date", some "2024-01-02"),
   ("Ground Truth", none), ("m1_Validation_Result", none),
   ("m1_Invalid_Reason", some "wrong_span"), ("m1_Final_Prediction", none),
   ("m2_Validation_Result", some "no")]

/-- Worked example table with both base columns, a ground-truth column and
two version-key namespaces. -/
def wTable : Table :=
  { cols := ["Encounter ID", "Note Date", "Ground Truth", "m1_Validation_Result",
             "m1_Invalid_Reason", "m1_Final_Prediction", "m2_Validation_Result"],
    rows := [wRow1, wRow2] }

/-- Table whose encounter-identifier column is absent. -/
def badTable : Table :=
  { cols := ["Note Date", "m1_Validation_Result"],
    rows := [[("Note Date", some "2024-01-01"), ("m1_Validation_Result", some "true")]] }

/-- Row whose validation-result cell holds a whitespace-only string. -/
def wsRow : Row :=
  [("Encounter ID", some "E1"), ("Note Date", some "2024-01-03"),
   ("m1_Validation_Result", some " ")]

/-- Table whose single validation-result cell is a whitespace-only string. -/
def wsTable : Table :=
  { cols := ["Encounter ID", "Note Date", "m1_Validation_Result"],
    rows := [wsRow] }

/-- Builds an aggregator-input record with the given version key, raw
validation value and invalid reason. -/
def sampleRecord (vk raw : String) (reason : Option String) : ValidationRecord :=
  { encounterId := some "E1", noteDate := some "2024-01-01", groundTruth := none,
    sourceFile := "reviews.csv", versionKey := vk, validationResultRaw := raw,
    validationResult := normalize_boolean_str (.vStr raw), invalidReason := reason,
    comments := none, predictedClass := none }

/-- Record collection with an invalid record lacking a reason under `v1` and
a valid record under `v2`. -/
def c3Records : List ValidationRecord :=
  [sampleRecord "v1" "false" none, sampleRecord "v2" "true" none]

/-- Record collection whose single invalid record carries no reason. -/
def c4Records : List ValidationRecord := [sampleRecord "v1" "false" none]

/-- Record whose predicted class and ground truth differ only in case and
surrounding whitespace. -/
def longerRecord : ValidationRecord :=
  { encounterId := some "E1", noteDate := some "2024-01-01",
    groundTruth := some " longer ", sourceFile := "reviews.csv",
    versionKey := "v1", validationResultRaw := "true",
    validationResult := some true, invalidReason := none, comments := none,
    predictedClass := some "Longer" }

/-! Helper lemmas shared by the claim theorems. -/

/-- Inserting with `insertLe` permutes to consing. -/
theorem perm_insertLe {α : Type} (le : α → α → Bool) (x : α) (l : List α) :
    List.Perm (insertLe le x l) (x :: l) := by
  induction l with
  | nil => exact List.Perm.refl _
  | cons y ys ih =>
    cases h : le x y with
    | true => simp [insertLe, h]
    | false =>
      simp only [insertLe, h, Bool.false_eq_true, if_false]
      exact (ih.cons y).trans (List.Perm.swap x y ys)

/-- Sorting with `sortLe` permutes the list. -/
theorem perm_sortLe {α : Type} (le : α → α → Bool) (l : List α) :
    List.Perm (sortLe le l) l := by
  induction l with
  | nil => exact List.Perm.refl _
  | cons x xs ih => exact (perm_insertLe le x (sortLe le xs)).trans (ih.cons x)

/-- Membership is invariant under `sortLe`. -/
theorem mem_sortLe {α : Type} (le : α → α → Bool) (a : α) (l : List α) :
    a ∈ sortLe le l ↔ a ∈ l := (perm_sortLe le l).mem_iff

/-- Sorting preserves the absence of duplicates. -/
theorem nodup_sortLe {α : Type} (le : α → α → Bool) (l : List α) (h : l.Nodup) :
    (sortLe le l).Nodup := (perm_sortLe le l).nodup_iff.mpr h

/-- The length of a `filterMap` counts the elements the function keeps. -/
theorem length_filterMap_eq_countP {α β : Type} (f : α → Option β) (l : List α) :
    (l.filterMap f).length = l.countP fun a => (f a).isSome := by
  induction l with
  | nil => rfl
  | cons x xs ih =>
    cases h : f x <;> simp [List.filterMap_cons, h, List.countP_cons, ih]

/-- Lengths of a filter and of its complement add up to the list's length. -/
theorem length_filter_add_length_filter_not {α : Type} (p : α → Bool) (l : List α) :
    (l.filter p).length + (l.filter fun a => !(p a)).length = l.length := by
  induction l with
  | nil => rfl
  | cons x xs ih => cases h : p x <;> simp [List.filter_cons, h] <;> omega

/-- Sums of pointwise-added maps split. -/
theorem sum_map_add_nat {α : Type} (f g : α → Nat) (l : List α) :
    (l.map fun a => f a + g a).sum = (l.map f).sum + (l.map g).sum := by
  induction l with
  | nil => rfl
  | cons x xs ih => simp only [List.map_cons, List.sum_cons, ih]; omega

/-- Indicator sum over a list avoiding `b` is zero. -/
theorem sum_map_ite_not_mem {β : Type} [DecidableEq β] (b : β) (ks : List β)
    (h : b ∉ ks) : (ks.map fun k => if b = k then 1 else 0).sum = 0 := by
  induction ks with
  | nil => rfl
  | cons k ks ih =>
    have hbk : b ≠ k := fun hc => h (hc ▸ List.mem_cons_self k ks)
    simp only [List.map_cons, List.sum_cons, if_neg hbk,
      ih (fun hc => h (List.mem_cons_of_mem k hc))]

/-- Indicator sum over a duplicate-free list containing `b` is one. -/
theorem sum_map_ite_mem {β : Type} [DecidableEq β] (b : β) :
    ∀ ks : List β, ks.Nodup → b ∈ ks →
      (ks.map fun k => if b = k then 1 else 0).sum = 1 := by
  intro ks
  induction ks with
  | nil => intro _ h; cases h
  | cons k ks ih =>
    intro hnd hmem
    rcases List.mem_cons.mp hmem with rfl | hmem'
    · simp only [List.map_cons, List.sum_cons, if_pos rfl,
        sum_map_ite_not_mem b ks (List.nodup_cons.mp hnd).1]
      simp
    · have hbk : b ≠ k := fun hc => (List.nodup_cons.mp hnd).1 (hc ▸ hmem')
      simp only [List.map_cons, List.sum_cons, if_neg hbk,
        ih (List.nodup_cons.mp hnd).2 hmem', Nat.zero_add]

/-- Partitioning a list by the value of `g` over a duplicate-free covering
index and summing the part sizes recovers the list's length. -/
theorem sum_map_length_filter {α β : Type} [DecidableEq β] (g : α → β) :
    ∀ (m : List α) (ks : List β), ks.Nodup → (∀ x ∈ m, g x ∈ ks) →
      (ks.map fun k => (m.filter fun a => decide (g a = k)).length).sum = m.length := by
  intro m
  induction m with
  | nil => intro ks _ _; simp
  | cons x xs ih =>
    intro ks hnd hcov
    have hstep : (ks.map fun k => ((x :: xs).filter fun a => decide (g a = k)).length)
        = ks.map fun k =>
            (if g x = k then 1 else 0) + ((xs.filter fun a => decide (g a = k)).length) := by
      refine List.map_congr_left fun k _ => ?_
      by_cases h : g x = k
      · simp [List.filter_cons, h]
        omega
      · simp [List.filter_cons, h]
    rw [hstep, sum_map_add_nat,
      sum_map_ite_mem (g x) ks hnd (hcov x (List.mem_cons_self x xs)),
      ih ks hnd (fun y hy => hcov y (List.mem_cons_of_mem x hy))]
    simp [List.length_cons, Nat.add_comm]

/-- Concatenating a string's split halves recovers the string. -/
theorem take_append_drop_asString (s : String) (i : Nat) :
    (s.toList.take i).asString ++ (s.toList.drop i).asString = s := by
  show String.mk _ ++ String.mk _ = s
  rw [show ∀ a b : List Char, String.mk a ++ String.mk b = String.mk (a ++ b)
      from fun _ _ => rfl, List.take_append_drop]
  cases s; rfl

/-- String concatenation associates. -/
theorem strAppend_assoc (a b c : String) : a ++ (b ++ c) = (a ++ b) ++ c := by
  cases a with
  | mk x =>
    cases b with
    | mk y =>
      cases c with
      | mk z =>
        show String.mk (x ++ (y ++ z)) = String.mk ((x ++ y) ++ z)
        rw [List.append_assoc]

/-! Claim theorems. -/

/-- C2: `normalize_boolean_str` is a total pure function mapping a boolean
to itself, an integer to true iff nonzero and to false iff zero, a string
through its trimmed lowercase form against the recognized marker lists with
everything else unknown, and null input to unknown; in particular
`"TRUE "` maps to true, `"0"` to false, `"maybe"` to unknown, the numeric
`1` to true and `None` to unknown. -/
theorem C2_normalize_validity_mapping :
    (∀ b : Bool, normalize_boolean_str (.vBool b) = some b)
    ∧ (∀ n : Int, (normalize_boolean_str (.vInt n) = some true ↔ n ≠ 0)
        ∧ (normalize_boolean_str (.vInt n) = some false ↔ n = 0))
    ∧ (∀ s : String,
        (normalize_boolean_str (.vStr s) = some true ↔ lowerStr (stripStr s) ∈ trueStrings)
        ∧ (normalize_boolean_str (.vStr s) = some false ↔ lowerStr (stripStr s) ∈ falseStrings)
        ∧ (normalize_boolean_str (.vStr s) = none ↔
            lowerStr (stripStr s) ∉ trueStrings ∧ lowerStr (stripStr s) ∉ falseStrings))
    ∧ normalize_boolean_str .vNone = none
    ∧ normalize_boolean_str (.vStr "TRUE ") = some true
    ∧ normalize_boolean_str (.vStr "0") = some false
    ∧ normalize_boolean_str (.vStr "maybe") = none
    ∧ normalize_boolean_str (.vInt 1) = some true := by
  refine ⟨fun b => rfl, fun n => ?_, fun s => ?_, rfl, by decide, by decide, by decide, by decide⟩
  · constructor
    · constructor
      · intro h
        simpa [normalize_boolean_str] using h
      · intro h
        simp [normalize_boolean_str, h]
    · constructor
      · intro h
        by_contra hne
        simp [normalize_boolean_str, hne] at h
      · intro h
        simp [normalize_boolean_str, h]
  · have hdisj : lowerStr (stripStr s) ∈ trueStrings → lowerStr (stripStr s) ∉ falseStrings := by
      intro ht
      simp only [trueStrings, List.mem_cons, List.not_mem_nil, or_false] at ht
      rcases ht with h | h | h | h <;> rw [h] <;> decide
    by_cases hT : lowerStr (stripStr s) ∈ trueStrings
    · have hF := hdisj hT
      simp [normalize_boolean_str, hT, hF]
    · by_cases hF : lowerStr (stripStr s) ∈ falseStrings
      · simp [normalize_boolean_str, hT, hF]
      · simp [normalize_boolean_str, hT, hF]

/-- C6: a table lacking the encounter-identifier column or the note-date
column takes the warn-and-skip branch: extraction returns the empty record
sequence, and the per-file loop still processes every other table. -/
theorem C6_missing_base_column_skips (t : Table) (src : String)
    (h : "Encounter ID" ∉ t.cols ∨ "Note Date" ∉ t.cols) :
    extractStatus t = .missingBaseColumns ∧ extract t src = []
    ∧ ∀ pre post : List (Table × String),
        process_csv_exports (pre ++ (t, src) :: post)
          = process_csv_exports pre ++ process_csv_exports post := by
  have hst : extractStatus t = .missingBaseColumns := by
    unfold extractStatus
    rcases h with h | h
    · rw [if_neg fun hc => h hc.1]
    · rw [if_neg fun hc => h hc.2]
  have hext : extract t src = [] := by
    unfold extract
    rw [hst]
  refine ⟨hst, hext, fun pre post => ?_⟩
  unfold process_csv_exports
  rw [List.flatMap_append, List.flatMap_cons]
  simp [hext]

/-- Closed instance of C6 at a concrete table missing the encounter
identifier: the extraction is empty and the concrete two-file run keeps the
good file's records. -/
theorem C6_witness :
    extractStatus badTable = .missingBaseColumns ∧ extract badTable "bad.csv" = [] :=
  ⟨(C6_missing_base_column_skips badTable "bad.csv" (Or.inl (by decide))).1,
   (C6_missing_base_column_skips badTable "bad.csv" (Or.inl (by decide))).2.1⟩

/-- C7: both normalization call sites agree: re-normalizing a produced
record's raw validation value at aggregation time returns exactly the
`validationResult` stored at extraction time. -/
theorem C7_renormalization_matches_extraction (t : Table) (src : String)
    (rec : ValidationRecord) (h : rec ∈ extract t src) :
    renorm rec = rec.validationResult := by
  unfold extract at h
  cases hst : extractStatus t <;> rw [hst] at h
  case missingBaseColumns => cases h
  case noVersionKeys => cases h
  case ok =>
    obtain ⟨r, _, hrec⟩ := List.mem_flatMap.mp h
    obtain ⟨vk, _, hmap⟩ := List.mem_filterMap.mp hrec
    obtain ⟨raw, _, rfl⟩ := Option.map_eq_some'.mp hmap
    rfl

/-- Closed instance of C7 at a concrete record extracted from the worked
example table. -/
theorem C7_witness :
    renorm (mkRecord "reviews.csv" true wRow1 "m1" "true")
      = (mkRecord "reviews.csv" true wRow1 "m1" "true").validationResult :=
  C7_renormalization_matches_extraction wTable "reviews.csv" _ (by decide)

/-- C8 as amended: every column matching the version pattern splits as the
discovered key, an underscore and one of the eight suffixes — but the key
may be the empty string. -/
theorem C8_version_key_decomposition (col k : String)
    (h : matchVersionColumn col = some k) :
    ∃ sfx ∈ versionSuffixes, col = k ++ "_" ++ sfx := by
  unfold matchVersionColumn at h
  obtain ⟨i, _, hf⟩ := List.exists_of_findSome?_eq_some h
  by_cases hc : versionSuffixes.any fun sfx => (col.toList.drop i).asString = "_" ++ sfx
  · rw [if_pos hc] at hf
    obtain ⟨sfx, hsfx, heq⟩ := List.any_eq_true.mp hc
    refine ⟨sfx, hsfx, ?_⟩
    have hdec := of_decide_eq_true heq
    have hsplit := take_append_drop_asString col i
    rw [hdec] at hsplit
    obtain rfl := Option.some_inj.mp hf
    rw [← strAppend_assoc]
    exact hsplit.symm
  · rw [if_neg hc] at hf
    cases hf

/-- Closed instance of C8's amended statement at a concrete matching
column. -/
theorem C8_witness :
    ∃ sfx ∈ versionSuffixes, "m1_Comments" = "m1" ++ "_" ++ sfx :=
  C8_version_key_decomposition "m1_Comments" "m1" (by decide)

/-- C8 counterexample: the column `_Validation_Result` matches the version
pattern with an empty captured key, and the empty string becomes a
discovered version key, contradicting the claimed non-emptiness. -/
theorem C8_counterexample :
    matchVersionColumn "_Validation_Result" = some ""
    ∧ "" ∈ discoverVersionKeys ["_Validation_Result", "Encounter ID", "Note Date"] := by
  decide

/-- C9: within every version group of the agreement analysis, the match and
mismatch counts partition the group's total. -/
theorem C9_matches_mismatches_partition (rs : List ValidationRecord) (vk : String) :
    gtMatches rs vk + gtMismatches rs vk = gtTotal rs vk :=
  length_filter_add_length_filter_not gtMatchB (gtGroup rs vk)

/-- Filtering a key-indexed `filterMap` for one listed key keeps exactly one
element when the key's cell function fires, none otherwise. -/
theorem length_filter_filterMap_key {α : Type} (cellF : String → Option α)
    (keyOf : α → String) (hkey : ∀ k rec, cellF k = some rec → keyOf rec = k) :
    ∀ (keys : List String), keys.Nodup → ∀ vk ∈ keys,
      ((keys.filterMap cellF).filter fun rec => decide (keyOf rec = vk)).length
        = if (cellF vk).isSome then 1 else 0 := by
  have hnone : ∀ (ks : List String) (vk' : String), vk' ∉ ks →
      ((ks.filterMap cellF).filter fun rec => decide (keyOf rec = vk')).length = 0 := by
    intro ks vk' hni
    rw [List.length_eq_zero, List.filter_eq_nil_iff]
    intro rec hrec
    obtain ⟨a, ha, hfa⟩ := List.mem_filterMap.mp hrec
    simp only [decide_eq_true_eq]
    intro heq
    exact hni (heq ▸ hkey a rec hfa ▸ ha)
  intro keys
  induction keys with
  | nil => intro _ vk hvk; cases hvk
  | cons k ks ih =>
    intro hnd vk hvk
    obtain ⟨hknotin, hnd'⟩ := List.nodup_cons.mp hnd
    rcases List.mem_cons.mp hvk with rfl | hvk'
    · cases hck : cellF vk with
      | none =>
        simp only [List.filterMap_cons, hck, Option.isSome_none, Bool.false_eq_true, if_false]
        exact hnone ks vk hknotin
      | some rec =>
        have hp : (decide (keyOf rec = vk)) = true := decide_eq_true (hkey vk rec hck)
        simp only [List.filterMap_cons, hck, List.filter_cons, hp, if_true,
          List.length_cons, hnone ks vk hknotin, Option.isSome_some]
    · have hvknek : vk ≠ k := fun hc => hknotin (hc ▸ hvk')
      cases hck : cellF k with
      | none =>
        simp only [List.filterMap_cons, hck]
        exact ih hnd' vk hvk'
      | some rec =>
        have hp : (decide (keyOf rec = vk)) = false := by
          rw [hkey k rec hck]
          exact decide_eq_false fun hc => hvknek hc.symm
        simp only [List.filterMap_cons, hck, List.filter_cons, hp, Bool.false_eq_true, if_false]
        exact ih hnd' vk hvk'

/-- The discovered version keys of a table carry no duplicates. -/
theorem nodup_discoverVersionKeys (cols : List String) :
    (discoverVersionKeys cols).Nodup :=
  nodup_sortLe _ _ (List.nodup_dedup _)

/-- C1: on a table passing the preconditions (both base columns present, at
least one version key discovered), extraction emits exactly one record per
(row, discovered key) pair whose `<key>_Validation_Result` cell is present
and none otherwise; the emitted total equals the count of present cells
across rows and keys; and the produced record's reason, comments and
predicted-class fields are looked up from the other suffix columns, `none`
when absent, without suppressing the record. -/
theorem C1_record_iff_present (t : Table) (src : String)
    (hid : "Encounter ID" ∈ t.cols) (hdate : "Note Date" ∈ t.cols)
    (hkeys : discoverVersionKeys t.cols ≠ []) :
    (extract t src).length
      = (t.rows.map fun r =>
          ((discoverVersionKeys t.cols).filter fun vk =>
            (getCell r (vk ++ "_Validation_Result")).isSome).length).sum
    ∧ (∀ r ∈ t.rows, ∀ vk ∈ discoverVersionKeys t.cols,
        ((recordsForRow src (decide ("Ground Truth" ∈ t.cols)) (discoverVersionKeys t.cols) r).filter
            fun rec => decide (rec.versionKey = vk)).length
          = if (getCell r (vk ++ "_Validation_Result")).isSome then 1 else 0)
    ∧ (∀ r ∈ t.rows, ∀ vk ∈ discoverVersionKeys t.cols, ∀ raw : String,
        getCell r (vk ++ "_Validation_Result") = some raw →
          mkRecord src (decide ("Ground Truth" ∈ t.cols)) r vk raw ∈ extract t src
          ∧ (mkRecord src (decide ("Ground Truth" ∈ t.cols)) r vk raw).invalidReason
              = getCell r (vk ++ "_Invalid_Reason")
          ∧ (mkRecord src (decide ("Ground Truth" ∈ t.cols)) r vk raw).comments
              = getCell r (vk ++ "_Comments")
          ∧ (mkRecord src (decide ("Ground Truth" ∈ t.cols)) r vk raw).predictedClass
              = getCell r (vk ++ "_Final_Prediction")) := by
  have hok : extractStatus t = .ok := by
    unfold extractStatus
    rw [if_pos ⟨hid, hdate⟩, if_neg hkeys]
  have hext : extract t src
      = t.rows.flatMap
          (recordsForRow src (decide ("Ground Truth" ∈ t.cols)) (discoverVersionKeys t.cols)) := by
    unfold extract
    rw [hok]
  refine ⟨?_, ?_, ?_⟩
  · rw [hext, List.length_flatMap]
    refine congrArg List.sum (List.map_congr_left fun r _ => ?_)
    have hrw : recordsForRow src (decide ("Ground Truth" ∈ t.cols)) (discoverVersionKeys t.cols) r
        = (discoverVersionKeys t.cols).filterMap fun k =>
            (getCell r (k ++ "_Validation_Result")).map
              (mkRecord src (decide ("Ground Truth" ∈ t.cols)) r k) := rfl
    simp only [Function.comp_apply]
    rw [hrw, length_filterMap_eq_countP, List.countP_eq_length_filter]
    refine congrArg List.length (List.filter_congr fun vk _ => ?_)
    cases hc : getCell r (vk ++ "_Validation_Result") <;> simp [hc]
  · intro r _ vk hvk
    have hrw : recordsForRow src (decide ("Ground Truth" ∈ t.cols)) (discoverVersionKeys t.cols) r
        = (discoverVersionKeys t.cols).filterMap fun k =>
            (getCell r (k ++ "_Validation_Result")).map
              (mkRecord src (decide ("Ground Truth" ∈ t.cols)) r k) := rfl
    rw [hrw, show (getCell r (vk ++ "_Validation_Result")).isSome
        = ((getCell r (vk ++ "_Validation_Result")).map
            (mkRecord src (decide ("Ground Truth" ∈ t.cols)) r vk)).isSome
      from by cases getCell r (vk ++ "_Validation_Result") <;> rfl]
    exact length_filter_filterMap_key
      (fun k => (getCell r (k ++ "_Validation_Result")).map
        (mkRecord src (decide ("Ground Truth" ∈ t.cols)) r k))
      (·.versionKey)
      (by
        intro k rec hk
        obtain ⟨raw, _, rfl⟩ := Option.map_eq_some'.mp hk
        rfl)
      (discoverVersionKeys t.cols) (nodup_discoverVersionKeys t.cols) vk hvk
  · intro r hr vk hvk raw hraw
    refine ⟨?_, rfl, rfl, rfl⟩
    rw [hext]
    refine List.mem_flatMap.mpr ⟨r, hr, ?_⟩
    exact List.mem_filterMap.mpr ⟨vk, hvk, by rw [hraw]; rfl⟩

/-- Closed instance of C1 at the worked example table: the emitted total
equals the count of present validation-result cells. -/
theorem C1_witness :
    (extract wTable "reviews.csv").length
      = (wTable.rows.map fun r =>
          ((discoverVersionKeys wTable.cols).filter fun vk =>
            (getCell r (vk ++ "_Validation_Result")).isSome).length).sum :=
  (C1_record_iff_present wTable "reviews.csv" (by decide) (by decide) (by decide)).1

/-- The surfaced exclusion tally counts exactly the records whose
re-normalized validation result is unknown. -/
theorem ambiguousCount_eq_length_filter (rs : List ValidationRecord) :
    ambiguousCount rs = (rs.filter fun rec => !((renorm rec).isSome)).length := by
  have h := length_filter_add_length_filter_not (fun r => (renorm r).isSome) rs
  unfold ambiguousCount resolvedRecords
  omega

/-- C10: a present but empty or whitespace-only validation-result cell is
treated as present: the record is emitted with an unknown normalized
result, it is excluded from the resolved set, and the aggregator's
surfaced ambiguous tally counts it. -/
theorem C10_blank_raw_counts_ambiguous (t : Table) (src : String) (r : Row)
    (vk raw : String) (hok : extractStatus t = .ok) (hr : r ∈ t.rows)
    (hvk : vk ∈ discoverVersionKeys t.cols)
    (hcell : getCell r (vk ++ "_Validation_Result") = some raw)
    (hblank : stripStr raw = "") :
    mkRecord src (decide ("Ground Truth" ∈ t.cols)) r vk raw ∈ extract t src
    ∧ (mkRecord src (decide ("Ground Truth" ∈ t.cols)) r vk raw).validationResult = none
    ∧ renorm (mkRecord src (decide ("Ground Truth" ∈ t.cols)) r vk raw) = none
    ∧ 0 < ambiguousCount (extract t src)
    ∧ ambiguousCount (extract t src)
        = ((extract t src).filter fun rec => !((renorm rec).isSome)).length := by
  have hmem : mkRecord src (decide ("Ground Truth" ∈ t.cols)) r vk raw ∈ extract t src := by
    unfold extract
    rw [hok]
    refine List.mem_flatMap.mpr ⟨r, hr, ?_⟩
    exact List.mem_filterMap.mpr ⟨vk, hvk, by rw [hcell]; rfl⟩
  have hnorm : normalize_boolean_str (.vStr raw) = none := by
    show (let valLower := lowerStr (stripStr raw);
      if valLower ∈ trueStrings then some true
      else if valLower ∈ falseStrings then some false else none) = none
    rw [hblank]
    decide
  refine ⟨hmem, hnorm, hnorm, ?_, ambiguousCount_eq_length_filter (extract t src)⟩
  rw [ambiguousCount_eq_length_filter (extract t src)]
  have : mkRecord src (decide ("Ground Truth" ∈ t.cols)) r vk raw
      ∈ (extract t src).filter fun rec => !((renorm rec).isSome) := by
    refine List.mem_filter.mpr ⟨hmem, ?_⟩
    have : renorm (mkRecord src (decide ("Ground Truth" ∈ t.cols)) r vk raw) = none := hnorm
    rw [this]
    rfl
  exact List.length_pos.mpr (List.ne_nil_of_mem this)

/-- Closed instance of C10 at a concrete table whose validation cell holds
a single space: the run surfaces a positive ambiguous tally. -/
theorem C10_witness : 0 < ambiguousCount (extract wsTable "ws.csv") :=
  (C10_blank_raw_counts_ambiguous wsTable "ws.csv" wsRow "m1" " "
    (by decide) (by decide) (by decide) (by decide) (by decide)).2.2.2.1

/-- C3 as amended: the invalid-reason cross-tabulation keeps exactly the
invalid records carrying a non-null reason, so its rows are the version
keys with at least one such record — a version all of whose invalid
records lack a reason, or with no invalid records, gets no row — and its
columns are the distinct non-null reasons; there is no column representing
the null reason. -/
theorem C3_crosstab_rows_and_columns (rs : List ValidationRecord) (vk s : String) :
    (vk ∈ crossTabRowKeys rs ↔
      ∃ r ∈ invalidRecords rs, r.invalidReason.isSome ∧ r.versionKey = vk)
    ∧ (s ∈ crossTabReasonCols rs ↔ ∃ r ∈ invalidRecords rs, r.invalidReason = some s) := by
  constructor
  · rw [crossTabRowKeys, mem_sortLe, List.mem_dedup, List.mem_map]
    unfold reasonedInvalidRecords
    constructor
    · rintro ⟨r, hr, rfl⟩
      rw [List.mem_filter] at hr
      exact ⟨r, hr.1, hr.2, rfl⟩
    · rintro ⟨r, hr, hsome, rfl⟩
      exact ⟨r, List.mem_filter.mpr ⟨hr, hsome⟩, rfl⟩
  · rw [crossTabReasonCols, mem_sortLe, List.mem_dedup, List.mem_filterMap]
    unfold reasonedInvalidRecords
    constructor
    · rintro ⟨r, hr, hreason⟩
      exact ⟨r, (List.mem_filter.mp hr).1, hreason⟩
    · rintro ⟨r, hr, hreason⟩
      refine ⟨r, List.mem_filter.mpr ⟨hr, ?_⟩, hreason⟩
      rw [hreason]
      rfl

/-- C3 counterexample: in a collection where `v1` has one invalid record
with a null reason and `v2` is resolved with zero invalid records, the
cross-tabulation has no row for `v2` (nor `v1`) and no column representing
the null reason — the invalid record is dropped, not counted. -/
theorem C3_counterexample :
    "v2" ∈ (resolvedRecords c3Records).map (·.versionKey)
    ∧ (invalidRecords c3Records).length = 1
    ∧ crossTabRowKeys c3Records = []
    ∧ crossTabReasonCols c3Records = [] := by decide

/-- The duplicate-free sorted column index of the cross-tabulation. -/
theorem nodup_crossTabReasonCols (rs : List ValidationRecord) :
    (crossTabReasonCols rs).Nodup :=
  nodup_sortLe _ _ (List.nodup_dedup _)

/-- The duplicate-free sorted row index of the cross-tabulation. -/
theorem nodup_crossTabRowKeys (rs : List ValidationRecord) :
    (crossTabRowKeys rs).Nodup :=
  nodup_sortLe _ _ (List.nodup_dedup _)

/-- Each total-invalid row entry counts the kept invalid records of its
version key: summing the row's cells over every reason column loses
nothing, because every kept record's reason appears among the columns. -/
theorem crossTabRowTotal_eq (rs : List ValidationRecord) (vk : String) :
    crossTabRowTotal rs vk
      = ((reasonedInvalidRecords rs).filter fun r => decide (r.versionKey = vk)).length := by
  have hcell : ∀ s : String, crossTabCell rs vk s
      = (((reasonedInvalidRecords rs).filter fun r => decide (r.versionKey = vk)).filter
          fun r => decide (r.invalidReason = some s)).length := by
    intro s
    unfold crossTabCell
    rw [List.filter_filter]
    refine congrArg List.length (List.filter_congr fun r _ => ?_)
    exact (Bool.and_comm _ _).symm
  unfold crossTabRowTotal
  have hmap : (crossTabReasonCols rs).map (crossTabCell rs vk)
      = ((crossTabReasonCols rs).map some).map
          (fun o => (((reasonedInvalidRecords rs).filter fun r => decide (r.versionKey = vk)).filter
            fun r => decide (r.invalidReason = o)).length) := by
    rw [List.map_map]
    exact List.map_congr_left fun s _ => hcell s
  rw [hmap]
  refine sum_map_length_filter (fun r : ValidationRecord => r.invalidReason) _ _
    (List.Nodup.map (Option.some_injective String) (nodup_crossTabReasonCols rs)) ?_
  intro r hrmv
  have hrm : r ∈ reasonedInvalidRecords rs := (List.mem_filter.mp hrmv).1
  have hsome : (r.invalidReason).isSome :=
    (List.mem_filter.mp hrm).2
  obtain ⟨s0, hs0⟩ := Option.isSome_iff_exists.mp hsome
  show r.invalidReason ∈ (crossTabReasonCols rs).map some
  rw [hs0]
  refine List.mem_map.mpr ⟨s0, ?_, rfl⟩
  rw [crossTabReasonCols, mem_sortLe, List.mem_dedup]
  exact List.mem_filterMap.mpr ⟨r, hrm, hs0⟩

/-- C4 as amended: the grand total in the corner of the cross-tabulation
equals the number of invalid records carrying a non-null reason, while the
overall summary's invalid count equals the number of all invalid records —
the two reconcile exactly when no invalid record lacks a reason. -/
theorem C4_grand_total_counts_reasoned (rs : List ValidationRecord) :
    crossTabGrandTotal rs
      = ((invalidRecords rs).filter fun r => r.invalidReason.isSome).length
    ∧ totalInvalid rs = (invalidRecords rs).length := by
  constructor
  · unfold crossTabGrandTotal
    have hmap : (crossTabRowKeys rs).map (crossTabRowTotal rs)
        = (crossTabRowKeys rs).map
            (fun vk => ((reasonedInvalidRecords rs).filter
              fun r => decide (r.versionKey = vk)).length) :=
      List.map_congr_left fun vk _ => crossTabRowTotal_eq rs vk
    rw [hmap]
    refine sum_map_length_filter (fun r : ValidationRecord => r.versionKey)
      (reasonedInvalidRecords rs) (crossTabRowKeys rs) (nodup_crossTabRowKeys rs) ?_
    intro r hrm
    rw [crossTabRowKeys, mem_sortLe, List.mem_dedup]
    exact List.mem_map.mpr ⟨r, hrm, rfl⟩
  · have h1 := length_filter_add_length_filter_not
      (fun r => decide (renorm r = some true)) (resolvedRecords rs)
    have h2 : ((resolvedRecords rs).filter fun r => !(decide (renorm r = some true)))
        = invalidRecords rs := by
      unfold invalidRecords
      refine List.filter_congr fun r hr => ?_
      have hs : (renorm r).isSome := (List.mem_filter.mp hr).2
      cases hb : renorm r with
      | none => rw [hb] at hs; cases hs
      | some b => cases b <;> simp [hb]
    unfold totalInvalid totalReviews totalValid
    rw [← h2]
    omega

/-- C4 counterexample: with a single invalid record whose reason is null,
the overall summary reports one invalid record while the cross-tabulation's
grand total is zero. -/
theorem C4_counterexample :
    crossTabGrandTotal c4Records = 0 ∧ totalInvalid c4Records = 1 := by decide

/-- C5: the agreement analysis considers exactly the resolved records whose
ground truth and predicted class are present and remain non-empty after
strip and lowercase; a record counts as a match precisely when the two
comparison forms coincide — so predicted `"Longer"` matches ground truth
`" longer "`; mismatches are the complement of matches over the same group;
and both rates are the guarded ratios, reported as zero for an empty group
instead of raising. -/
theorem C5_agreement_semantics (rs : List ValidationRecord) (vk : String) :
    (∀ r : ValidationRecord, r ∈ gtGroup rs vk ↔
      (r ∈ resolvedRecords rs ∧ r.versionKey = vk ∧
       ∃ g p, r.groundTruth = some g ∧ r.predictedClass = some p ∧
         compStr g ≠ "" ∧ compStr p ≠ ""))
    ∧ (∀ (r : ValidationRecord) (g p : String), r.groundTruth = some g →
        r.predictedClass = some p → (gtMatchB r = true ↔ compStr p = compStr g))
    ∧ gtMatchB longerRecord = true
    ∧ gtMismatches rs vk = gtTotal rs vk - gtMatches rs vk
    ∧ (gtTotal rs vk = 0 → agreementRate rs vk = 0 ∧ disagreementRate rs vk = 0)
    ∧ (0 < gtTotal rs vk →
        agreementRate rs vk * (gtTotal rs vk : ℚ) = (gtMatches rs vk : ℚ)
        ∧ disagreementRate rs vk * (gtTotal rs vk : ℚ) = (gtMismatches rs vk : ℚ)) := by
  refine ⟨?_, ?_, by decide, ?_, ?_, ?_⟩
  · intro r
    unfold gtGroup gtRecords
    rw [List.filter_filter, List.mem_filter]
    constructor
    · rintro ⟨hres, hb⟩
      rw [Bool.and_eq_true] at hb
      refine ⟨hres, of_decide_eq_true hb.1, ?_⟩
      have hb2 := hb.2
      cases hg : r.groundTruth with
      | none => simp [hg] at hb2
      | some g =>
        cases hp : r.predictedClass with
        | none => simp [hg, hp] at hb2
        | some p =>
          simp only [hg, hp, Bool.and_eq_true, Bool.not_eq_true', decide_eq_false_iff_not] at hb2
          exact ⟨g, p, rfl, rfl, hb2.1, hb2.2⟩
    · rintro ⟨hres, hvk, g, p, hg, hp, hgne, hpne⟩
      refine ⟨hres, ?_⟩
      simp [hg, hp, hvk, hgne, hpne]
  · intro r g p hg hp
    simp [gtMatchB, hg, hp]
  · have h := length_filter_add_length_filter_not gtMatchB (gtGroup rs vk)
    unfold gtMismatches gtTotal gtMatches
    omega
  · intro h
    unfold agreementRate disagreementRate
    rw [h]
    simp
  · intro h
    have hne : ((gtTotal rs vk : ℚ)) ≠ 0 := Nat.cast_ne_zero.mpr (by omega)
    unfold agreementRate disagreementRate
    rw [if_pos h, if_pos h]
    constructor <;> exact div_mul_cancel₀ _ hne

end ClinicalReview
